import Mathlib

/-!
Verification of the `interviewer` crate's tokenization / escaping engine and
its typed-conversion and acquisition-policy layer (`src/lib.rs`).

Strings are modelled as `List Char`; Rust byte indices are recovered through
`Char.utf8Size`, which matters because the source's `iterator_skip` helper is
fed `seq.len()` (a byte count) while iterating `char_indices` (a character
iterator).  All scanning loops from the source are written with an explicit
structural fuel parameter initialised to the scanned list's length; the
fuel-exhausted branches are unreachable for those initial values (each loop
iteration consumes at least one character), and keeping the recursion
structural lets every definition evaluate by kernel reduction.
-/

namespace Interviewer

/-- Unicode White_Space property, as decided by Rust's `char::is_whitespace`
(used by `str::trim`, `str::split_whitespace`). -/
def isWS (c : Char) : Bool :=
  let n := c.toNat
  (0x9 ≤ n && n ≤ 0xD) || n == 0x20 || n == 0x85 || n == 0xA0 || n == 0x1680 ||
  (0x2000 ≤ n && n ≤ 0x200A) || n == 0x2028 || n == 0x2029 || n == 0x202F ||
  n == 0x205F || n == 0x3000

/-- Rust `str::trim_start`. -/
def trimStart (s : List Char) : List Char := s.dropWhile isWS

/-- Rust `str::trim_end`. -/
def trimEnd (s : List Char) : List Char := (s.reverse.dropWhile isWS).reverse

/-- Rust `str::trim`. -/
def trim (s : List Char) : List Char := trimEnd (trimStart s)

/-- The sentinel `WHITESPACE_REPR` from `lib.rs` line 29. -/
def WHITESPACE_REPR : List Char := "THIS___IS__A_REPR".data

/-- Byte length of a string, `str::len` in Rust (`s` given as its character
list). -/
def utf8Len (s : List Char) : Nat := (s.map Char.utf8Size).sum

/-- Quote preprocessing loop of the `many_main!` macro (`lib.rs` 224-234):
walk the characters with an `in_quote` flag that toggles on every `"`;
a whitespace character seen while the flag is set is replaced by the
sentinel, `"` characters are dropped, every other character is kept. -/
def quoteScan : List Char → Bool → List Char
  | [], _ => []
  | c :: rest, inQuote =>
    let inQuote2 := if c = '"' then !inQuote else inQuote
    if inQuote2 && isWS c then WHITESPACE_REPR ++ quoteScan rest inQuote2
    else if c ≠ '"' then c :: quoteScan rest inQuote2
    else quoteScan rest inQuote2

/-- Accumulator loop behind `str::split_whitespace` (`lib.rs` 241):
`cur` is the current (possibly empty) run of non-whitespace characters. -/
def swAux : List Char → List Char → List (List Char)
  | [], cur => if cur.isEmpty then [] else [cur]
  | c :: rest, cur =>
    if isWS c then (if cur.isEmpty then swAux rest [] else cur :: swAux rest [])
    else swAux rest (cur ++ [c])

/-- Rust `str::split_whitespace`: the maximal whitespace-free runs. -/
def splitWhitespace (s : List Char) : List (List Char) := swAux s []

/-- Loop behind Rust `str::split(seq)` (`lib.rs` 242): split at each
non-overlapping literal occurrence of `seq`, scanning left to right.  The
`!seq.isEmpty` guard is vacuous at every use site (the crate's documented
invariant is a non-empty separator). `fuel` is initialised to the length of
the scanned list. -/
def splitGo (seq : List Char) : Nat → List Char → List Char → List (List Char)
  | _, [], cur => [cur]
  | 0, s, cur => [cur ++ s]
  | fuel + 1, c :: rest, cur =>
    if seq.isPrefixOf (c :: rest) && !seq.isEmpty then
      cur :: splitGo seq fuel ((c :: rest).drop seq.length) []
    else
      splitGo seq fuel rest (cur ++ [c])

/-- Rust `s.split(seq)` for a literal string pattern. -/
def splitSeq (seq s : List Char) : List (List Char) := splitGo seq s.length s []

/-- Number of extra iterator elements consumed by `iterator_skip(it, len)`
(`lib.rs` 202-213): `len < 2` consumes none, `len == 2` consumes one
(`it.next()`), `len > 2` consumes `len - 1` (`it.nth(len - 2)`). -/
def iteratorSkipCount (len : Nat) : Nat := if len < 2 then 0 else len - 1

/-- Scan loop of the `Separator::SequenceTrim*` branches (`lib.rs` 243-287).
The scan position `p` and the split base `start` are character positions
into `s`.  On a match at `p` the closed segment `s[start..p]` is trimmed and
pushed; the Rust code then calls `iterator_skip(&mut it, seq.len())` where
`seq.len()` is `seq`'s BYTE length, so together with the `it.next()` of the
`while let` header the iterator consumes `1 + iteratorSkipCount (utf8Len seq)`
characters, while `start_index = i + seq.len()` moves the split base exactly
past the matched separator (`seq.length` characters beyond `p`).  After the
loop the remainder `s[start..]` is trimmed and pushed.  `fuel` is initialised
to `s.length`; since every iteration advances `p` by at least one while
consuming one fuel, fuel can reach `0` only with `p ≥ s.length`, where the
loop would have stopped anyway. -/
def scanGo (trimF : List Char → List Char) (seq s : List Char) :
    Nat → Nat → Nat → List (List Char) → List (List Char)
  | 0, _, start, acc => acc ++ [trimF (s.drop start)]
  | fuel + 1, p, start, acc =>
    if p < s.length then
      if seq.isPrefixOf (s.drop p) then
        scanGo trimF seq s fuel (p + (1 + iteratorSkipCount (utf8Len seq)))
          (p + seq.length) (acc ++ [trimF ((s.take p).drop start)])
      else
        scanGo trimF seq s fuel (p + 1) start acc
    else acc ++ [trimF (s.drop start)]

/-- One `Separator::SequenceTrim*` branch of `many_main!`, parameterised by
the per-segment trimming function (`trim`, `trim_start` or `trim_end`). -/
def seqScan (trimF : List Char → List Char) (seq s : List Char) :
    List (List Char) :=
  scanGo trimF seq s s.length 0 0 []

/-- The `Separator` enum (`lib.rs` 74-81). -/
inductive Separator where
  | whitespace
  | sequence (seq : List Char)
  | sequenceTrim (seq : List Char)
  | sequenceTrimStart (seq : List Char)
  | sequenceTrimEnd (seq : List Char)

/-- The `match $sep` tokenization of `many_main!` (`lib.rs` 240-288),
before the trailing-empty pop. -/
def rawTokens : Separator → List Char → List (List Char)
  | .whitespace, s => splitWhitespace s
  | .sequence seq, s => splitSeq seq s
  | .sequenceTrim seq, s => seqScan trim seq s
  | .sequenceTrimStart seq, s => seqScan trimStart seq s
  | .sequenceTrimEnd seq, s => seqScan trimEnd seq s

/-- The trailing-empty pop of `many_main!` (`lib.rs` 289-291):
`if s.last() == Some(&"") { s.pop(); }`. -/
def dropLastEmpty (ts : List (List Char)) : List (List Char) :=
  if ts.getLast? = some [] then ts.dropLast else ts

/-- Full tokenization of one (already preprocessed) line: the separator
match followed by the trailing-empty pop. -/
def tokenize (sep : Separator) (s : List Char) : List (List Char) :=
  dropLastEmpty (rawTokens sep s)

/-- Loop behind Rust `String::replace(pat, repl)` (`lib.rs` 293): replace
every non-overlapping occurrence of `pat`, left to right.  The
`!pat.isEmpty` guard is vacuous at the one use site (`pat` is the 17-character
sentinel).  `fuel` is initialised to the scanned list's length. -/
def replaceGo (pat repl : List Char) : Nat → List Char → List Char
  | _, [] => []
  | 0, s => s
  | fuel + 1, c :: rest =>
    if pat.isPrefixOf (c :: rest) && !pat.isEmpty then
      repl ++ replaceGo pat repl fuel ((c :: rest).drop pat.length)
    else
      c :: replaceGo pat repl fuel rest

/-- Rust `s.replace(pat, repl)`. -/
def replaceList (pat repl s : List Char) : List Char :=
  replaceGo pat repl s.length s

/-- The line preprocessing of `many_main!` (`lib.rs` 218-238): when the
`PARSE_QUOTES` flag is set, run the quote scan (starting outside a quote)
and trim the result; otherwise the acquired line is used as is. -/
def preprocessLine (quoteMode : Bool) (line : List Char) : List Char :=
  if quoteMode then trim (quoteScan line false) else line

/-- Everything `many_main!` does to one acquired line: preprocess, tokenize,
then map the sentinel-to-space restoration over every token
(`lib.rs` 215-295). -/
def processLine (quoteMode : Bool) (sep : Separator) (line : List Char) :
    List (List Char) :=
  (tokenize sep (preprocessLine quoteMode line)).map
    (replaceList WHITESPACE_REPR [' '])

/-- The `InterviewError::ParseError` payload (`lib.rs` 69-71). -/
structure ParseError where
  origin : List Char
  target : List Char
deriving DecidableEq, Repr

/-- `impl Askable for bool` (`lib.rs` 472-485): lowercase, trim, then match
against the literal truthy / falsy sets; anything else is a `ParseError`
carrying the original text and the target name `bool`.  (Lowercasing is
`Char.toLower`, the ASCII case map; Rust's `to_lowercase` agrees with it on
all inputs whose lowercase form could meet the matched ASCII sets.) -/
def boolConvert (s : List Char) : Except ParseError Bool :=
  let lower := trim (s.map Char.toLower)
  if lower = "y".data ∨ lower = "yes".data ∨ lower = "t".data ∨
      lower = "true".data ∨ lower = "1".data then .ok true
  else if lower = "n".data ∨ lower = "no".data ∨ lower = "f".data ∨
      lower = "false".data ∨ lower = "0".data then .ok false
  else .error ⟨s, "bool".data⟩

/-- The conversion loop shared by the multi-value operations: convert the
tokens in order, stopping at the first failure with that token's error
(`for x in s { v.push(Askable::convert(x)?); }`). -/
def convertAll {α : Type} (conv : List Char → Except ParseError α) :
    List (List Char) → Except ParseError (List α)
  | [] => .ok []
  | t :: ts =>
    match conv t with
    | .ok v =>
      match convertAll conv ts with
      | .ok vs => .ok (v :: vs)
      | .error e => .error e
    | .error e => .error e

/-- `ask_many` (`lib.rs` 317-324): one acquired line, tokenized once, every
token converted; the first conversion failure fails the whole call.  The
acquired line and the ambient `PARSE_QUOTES` snapshot are explicit
parameters. -/
def ask_many {α : Type} (conv : List Char → Except ParseError α)
    (quoteMode : Bool) (sep : Separator) (line : List Char) :
    Except ParseError (List α) :=
  convertAll conv (processLine quoteMode sep line)

/-- `ask_many_until` (`lib.rs` 345-364): process acquired lines one after the
other; a line on which any token fails conversion is discarded whole
(`continue 'outer`) and a fresh line is processed; the first line whose
tokens all convert yields the result.  The (conceptually infinite) stream of
acquired lines is modelled as a list; `none` means the supplied lines were
exhausted with the loop still running. -/
def ask_many_until {α : Type} (conv : List Char → Except ParseError α)
    (quoteMode : Bool) (sep : Separator) :
    List (List Char) → Option (List α)
  | [] => none
  | line :: rest =>
    match convertAll conv (processLine quoteMode sep line) with
    | .ok v => some v
    | .error _ => ask_many_until conv quoteMode sep rest

/-- `ask_many_opt` (`lib.rs` 387-402): like `ask_many_until`, but a line that
tokenizes to zero tokens stops the loop with `None` (modelled `some none`)
before any conversion is attempted.  The outer `none` again means the
supplied lines ran out. -/
def ask_many_opt {α : Type} (conv : List Char → Except ParseError α)
    (quoteMode : Bool) (sep : Separator) :
    List (List Char) → Option (Option (List α))
  | [] => none
  | line :: rest =>
    let toks := processLine quoteMode sep line
    if toks.length = 0 then some none
    else
      match convertAll conv toks with
      | .ok v => some (some v)
      | .error _ => ask_many_opt conv quoteMode sep rest

/-- Modelled from the spec (for comparison with `quoteScan`): the rewritten
line keeps every non-quote character, except that a whitespace character
preceded by an odd number of `"` characters (`q` counts the quotes already
seen) is replaced by the sentinel; every `"` is removed. -/
def specQuoteRewrite : List Char → Nat → List Char
  | [], _ => []
  | c :: rest, q =>
    if c = '"' then specQuoteRewrite rest (q + 1)
    else if isWS c ∧ q % 2 = 1 then WHITESPACE_REPR ++ specQuoteRewrite rest q
    else c :: specQuoteRewrite rest q

/-- Modelled from the spec (for comparison with `splitWhitespace`): the
number of maximal whitespace-delimited runs; `inRun` records whether the
previous character was part of a run. -/
def runCountAux : List Char → Bool → Nat
  | [], _ => 0
  | c :: rest, inRun =>
    if isWS c then runCountAux rest false
    else (if inRun then 0 else 1) + runCountAux rest true

/-- Modelled from the spec: the number of maximal whitespace-delimited runs
of a line. -/
def specMaximalRunCount (s : List Char) : Nat := runCountAux s false

/-- Decides whether `seq` occurs literally anywhere in `s` (at any character
position, the empty suffix included). -/
def occursIn (seq s : List Char) : Bool :=
  (List.range (s.length + 1)).any fun n => seq.isPrefixOf (s.drop n)

/-- Whether the chosen separator occurs in `s`: a whitespace character for
`Whitespace`, a literal occurrence of `seq` for the sequence variants. -/
def sepOccurs : Separator → List Char → Bool
  | .whitespace, s => s.any isWS
  | .sequence seq, s => occursIn seq s
  | .sequenceTrim seq, s => occursIn seq s
  | .sequenceTrimStart seq, s => occursIn seq s
  | .sequenceTrimEnd seq, s => occursIn seq s


/-! ## Helper lemmas -/

lemma take_drop_append (s : List Char) (start p : Nat) (h : start ≤ p) :
    (s.take p).drop start ++ s.drop p = s.drop start := by
  rw [List.drop_take]
  have h2 : s.drop p = (s.drop start).drop (p - start) := by
    rw [List.drop_drop]; congr 1; omega
  rw [h2, List.take_append_drop]

lemma take_succ_drop (s : List Char) (start p : Nat) (h1 : start ≤ p)
    (h2 : p < s.length) :
    (s.take (p + 1)).drop start = (s.take p).drop start ++ (s.drop p).take 1 := by
  have hl : start ≤ (s.take p).length := by
    simp [List.length_take]; omega
  rw [List.take_add, List.drop_append_of_le_length hl]

lemma utf8Len_eq_length (seq : List Char) (h : ∀ c ∈ seq, c.utf8Size = 1) :
    utf8Len seq = seq.length := by
  induction seq with
  | nil => rfl
  | cons c cs ih =>
    have hc : c.utf8Size = 1 := h c (by simp)
    have hcs := ih (fun d hd => h d (by simp [hd]))
    simp only [utf8Len, List.map_cons, List.sum_cons, List.length_cons] at *
    omega

lemma one_add_iteratorSkipCount (n : Nat) (h : 1 ≤ n) :
    1 + iteratorSkipCount n = n := by
  unfold iteratorSkipCount; split <;> omega

/-- For a non-empty separator made only of single-byte characters, the
`SequenceTrim*` scan agrees with `str::split` followed by per-segment
trimming. -/
lemma scanGo_eq_splitGo (trimF : List Char → List Char) (seq s : List Char)
    (hne : seq ≠ []) (hb : ∀ c ∈ seq, c.utf8Size = 1) :
    ∀ fuel p start acc, start ≤ p →
      scanGo trimF seq s fuel p start acc =
        acc ++ (splitGo seq fuel (s.drop p) ((s.take p).drop start)).map trimF := by
  have hlen : utf8Len seq = seq.length := utf8Len_eq_length seq hb
  have hone : 1 ≤ seq.length := by
    cases seq with
    | nil => exact absurd rfl hne
    | cons a l => simp
  have hskip : 1 + iteratorSkipCount (utf8Len seq) = seq.length := by
    rw [hlen, one_add_iteratorSkipCount _ hone]
  have hnemp : seq.isEmpty = false := by
    cases seq with
    | nil => exact absurd rfl hne
    | cons a l => rfl
  intro fuel
  induction fuel with
  | zero =>
    intro p start acc h
    cases hd : s.drop p with
    | nil =>
      have hp : s.length ≤ p := by
        by_contra hlt
        have : (s.drop p).length = s.length - p := List.length_drop p s
        rw [hd] at this
        simp at this
        omega
      have ht : s.take p = s := List.take_of_length_le hp
      simp [scanGo, splitGo, hd, ht]
    | cons c r =>
      have hta := take_drop_append s start p h
      simp only [scanGo, splitGo]
      rw [← hd, hta]
      simp
  | succ fuel ih =>
    intro p start acc h
    by_cases hp : p < s.length
    · have hd : s.drop p = s.get ⟨p, hp⟩ :: s.drop (p + 1) :=
        List.drop_eq_getElem_cons hp
      by_cases hm : seq.isPrefixOf (s.drop p)
      · rw [scanGo]
        rw [if_pos hp, if_pos hm, hskip]
        rw [ih (p + seq.length) (p + seq.length)
          (acc ++ [trimF ((s.take p).drop start)]) (le_refl _)]
        have hnil : (s.take (p + seq.length)).drop (p + seq.length) = [] := by
          rw [List.drop_take]
          simp
        rw [hnil]
        conv_rhs => rw [hd]
        rw [splitGo]
        have hcond : seq.isPrefixOf (s.get ⟨p, hp⟩ :: s.drop (p + 1)) = true := by
          rw [← hd]; exact hm
        rw [if_pos (by rw [hcond, hnemp]; rfl)]
        rw [← hd]
        rw [List.drop_drop]
        rw [List.map_cons]
        simp [Nat.add_comm]
      · rw [scanGo]
        rw [if_pos hp, if_neg hm]
        rw [ih (p + 1) start acc (by omega)]
        conv_rhs => rw [hd]
        rw [splitGo]
        have hcond : (seq.isPrefixOf (s.get ⟨p, hp⟩ :: s.drop (p + 1)) &&
            !seq.isEmpty) = false := by
          rw [← hd]
          simp [hm]
        rw [if_neg (by rw [hcond]; simp)]
        have hstep : (s.take (p + 1)).drop start =
            (s.take p).drop start ++ [s.get ⟨p, hp⟩] := by
          rw [take_succ_drop s start p h hp, hd]
          rfl
        rw [hstep]
    · have hd : s.drop p = [] := List.drop_eq_nil_of_le (by omega)
      have ht : s.take p = s := List.take_of_length_le (by omega)
      rw [scanGo, if_neg hp]
      simp [splitGo, hd, ht]



lemma occursIn_false (seq s : List Char) (h : occursIn seq s = false) :
    ∀ n, seq.isPrefixOf (s.drop n) = false := by
  intro n
  have hall := List.any_eq_false.mp h
  by_cases hn : n ≤ s.length
  · have := hall n (List.mem_range.mpr (by omega))
    simpa only [Bool.not_eq_true] using this
  · have h0 := hall s.length (List.mem_range.mpr (by omega))
    rw [List.drop_length] at h0
    rw [List.drop_eq_nil_of_le (by omega)]
    simpa only [Bool.not_eq_true] using h0

lemma swAux_no_ws (s : List Char) (h : ∀ c ∈ s, isWS c = false) :
    ∀ cur, swAux s cur = if (cur ++ s).isEmpty then [] else [cur ++ s] := by
  induction s with
  | nil => intro cur; simp [swAux]
  | cons c rest ih =>
    intro cur
    have hc : isWS c = false := h c (by simp)
    rw [swAux, hc]
    simp only [Bool.false_eq_true, if_false]
    rw [ih (fun d hd => h d (by simp [hd])) (cur ++ [c])]
    simp

lemma splitGo_no_match (seq : List Char) :
    ∀ (s : List Char), (∀ n, seq.isPrefixOf (s.drop n) = false) →
      ∀ fuel cur, splitGo seq fuel s cur = [cur ++ s] := by
  intro s
  induction s with
  | nil => intro _ fuel cur; cases fuel <;> simp [splitGo]
  | cons c rest ih =>
    intro h fuel cur
    cases fuel with
    | zero => rw [splitGo] <;> simp
    | succ fuel =>
      have h0 : seq.isPrefixOf (c :: rest) = false := by
        have := h 0
        simpa using this
      rw [splitGo, if_neg (by rw [h0]; simp)]
      rw [ih (fun n => by have := h (n + 1); simpa using this) fuel (cur ++ [c])]
      simp

lemma scanGo_no_match (trimF : List Char → List Char) (seq s : List Char)
    (h : ∀ n, seq.isPrefixOf (s.drop n) = false) :
    ∀ fuel p start acc,
      scanGo trimF seq s fuel p start acc = acc ++ [trimF (s.drop start)] := by
  intro fuel
  induction fuel with
  | zero => intro p start acc; rw [scanGo]
  | succ fuel ih =>
    intro p start acc
    rw [scanGo]
    by_cases hp : p < s.length
    · rw [if_pos hp, if_neg (by rw [h p]; simp)]
      exact ih (p + 1) start acc
    · rw [if_neg hp]

lemma dropLastEmpty_singleton (s : List Char) (h : s ≠ []) :
    dropLastEmpty [s] = [s] := by
  rw [dropLastEmpty, if_neg]
  simp [h]

lemma dropLastEmpty_of_no_empty (ts : List (List Char))
    (h : ∀ t ∈ ts, t ≠ []) : dropLastEmpty ts = ts := by
  rw [dropLastEmpty, if_neg]
  intro hlast
  cases ts with
  | nil => simp at hlast
  | cons a l =>
    have hne : (a :: l) ≠ [] := by simp
    rw [List.getLast?_eq_getLast _ hne] at hlast
    have hmem := List.getLast_mem hne
    have := h _ hmem
    simp only [Option.some.injEq] at hlast
    exact this hlast

lemma swAux_ne_nil (s : List Char) :
    ∀ cur t, t ∈ swAux s cur → t ≠ [] := by
  induction s with
  | nil =>
    intro cur t ht
    rw [swAux] at ht
    by_cases hc : cur.isEmpty
    · rw [if_pos hc] at ht; simp at ht
    · rw [if_neg hc] at ht
      simp only [List.mem_singleton] at ht
      subst ht
      simpa using hc
  | cons c rest ih =>
    intro cur t ht
    rw [swAux] at ht
    by_cases hw : isWS c
    · rw [if_pos hw] at ht
      by_cases hc : cur.isEmpty
      · rw [if_pos hc] at ht; exact ih [] t ht
      · rw [if_neg hc] at ht
        rcases List.mem_cons.mp ht with rfl | ht2
        · simpa using hc
        · exact ih [] t ht2
    · rw [if_neg hw] at ht
      exact ih (cur ++ [c]) t ht

lemma swAux_length (s : List Char) :
    ∀ cur, (swAux s cur).length =
      runCountAux s (!cur.isEmpty) + (if cur.isEmpty then 0 else 1) := by
  induction s with
  | nil =>
    intro cur
    rw [swAux, runCountAux]
    by_cases hc : cur.isEmpty <;> simp [hc]
  | cons c rest ih =>
    intro cur
    rw [swAux, runCountAux]
    by_cases hw : isWS c
    · rw [if_pos hw, if_pos hw]
      by_cases hc : cur.isEmpty
      · rw [if_pos hc, ih []]
        simp [hc]
      · rw [if_neg hc]
        simp only [List.length_cons, ih []]
        simp [hc]
    · rw [if_neg hw, if_neg hw, ih (cur ++ [c])]
      have : (cur ++ [c]).isEmpty = false := by simp
      rw [this]
      by_cases hc : cur.isEmpty <;> simp [hc] <;> omega



lemma parity_toggle (q : Nat) : (!(q % 2 == 1)) = ((q + 1) % 2 == 1) := by
  rcases Nat.mod_two_eq_zero_or_one q with h | h
  · have h1 : (q + 1) % 2 = 1 := by omega
    rw [h, h1]
    rfl
  · have h1 : (q + 1) % 2 = 0 := by omega
    rw [h, h1]
    rfl

/-- The in-quote flag maintained by `quoteScan` is the parity of the number
of `"` characters already consumed, so the scan realises the spec's
odd-numbered-to-even-numbered quote regions. -/
lemma quoteScan_eq_spec (s : List Char) :
    ∀ q : Nat, quoteScan s (q % 2 == 1) = specQuoteRewrite s q := by
  induction s with
  | nil => intro q; rfl
  | cons c rest ih =>
    intro q
    rw [quoteScan, specQuoteRewrite]
    by_cases hq : c = '"'
    · subst hq
      simp only [if_pos rfl]
      rw [parity_toggle q]
      have hws : isWS '"' = false := by decide
      rw [hws]
      simp only [Bool.and_false, Bool.false_eq_true, if_false]
      rw [if_neg (by simp)]
      exact ih (q + 1)
    · simp only [if_neg hq]
      by_cases hw : isWS c
      · rw [hw]
        by_cases hpar : q % 2 = 1
        · have hb : (q % 2 == 1) = true := by simp [hpar]
          rw [hb]
          simp only [Bool.and_self, if_pos rfl]
          rw [← hb, ih q]
          have hcond : True ∧ q % 2 = 1 := ⟨trivial, hpar⟩
          rw [if_pos hcond]
          simp
        · have hb : (q % 2 == 1) = false := by simp [hpar]
          rw [hb]
          simp only [Bool.false_and, Bool.false_eq_true, if_false]
          rw [if_pos hq, if_neg (fun hh => hpar hh.2)]
          rw [← hb, ih q]
      · have hw2 : isWS c = false := by simpa using hw
        rw [hw2]
        simp only [Bool.and_false, Bool.false_eq_true, if_false]
        rw [if_pos hq, if_neg (fun hh => hh.1)]
        rw [ih q]

lemma convertAll_ok_of_map {α : Type} (conv : List Char → Except ParseError α) :
    ∀ (ts : List (List Char)) (vs : List α),
      ts.map (fun t => (conv t).toOption) = vs.map some →
      convertAll conv ts = .ok vs := by
  intro ts
  induction ts with
  | nil =>
    intro vs h
    simp only [List.map_nil] at h
    have : vs = [] := by
      cases vs with
      | nil => rfl
      | cons v vs2 => simp at h
    subst this
    rfl
  | cons t ts ih =>
    intro vs h
    cases vs with
    | nil => simp at h
    | cons v vs2 =>
      simp only [List.map_cons, List.cons.injEq] at h
      obtain ⟨h1, h2⟩ := h
      have hok : conv t = .ok v := by
        cases hc : conv t with
        | ok w => rw [hc] at h1; simp [Except.toOption] at h1; rw [h1]
        | error e => rw [hc] at h1; simp [Except.toOption] at h1
      rw [convertAll, hok, ih vs2 h2]

lemma convertAll_error_of_split {α : Type}
    (conv : List Char → Except ParseError α) (e : ParseError) :
    ∀ (ts1 : List (List Char)) (t : List Char) (ts2 : List (List Char)),
      (∀ u ∈ ts1, (conv u).toOption ≠ none) → conv t = .error e →
      convertAll conv (ts1 ++ t :: ts2) = .error e := by
  intro ts1
  induction ts1 with
  | nil =>
    intro t ts2 _ ht
    rw [List.nil_append, convertAll, ht]
  | cons u ts ih =>
    intro t ts2 hall ht
    have hu := hall u (by simp)
    obtain ⟨v, hv⟩ : ∃ v, conv u = .ok v := by
      cases hc : conv u with
      | ok w => exact ⟨w, rfl⟩
      | error e2 => rw [hc] at hu; simp [Except.toOption] at hu
    rw [List.cons_append, convertAll, hv,
      ih t ts2 (fun w hw => hall w (by simp [hw])) ht]

lemma convertAll_error_of_mem {α : Type}
    (conv : List Char → Except ParseError α) :
    ∀ ts : List (List Char), (∃ t ∈ ts, (conv t).toOption = none) →
      ∃ e, convertAll conv ts = .error e := by
  intro ts
  induction ts with
  | nil => rintro ⟨t, ht, _⟩; simp at ht
  | cons t ts ih =>
    rintro ⟨u, hu, hnone⟩
    rcases List.mem_cons.mp hu with rfl | hu2
    · obtain ⟨e, he⟩ : ∃ e, conv u = .error e := by
        cases hc : conv u with
        | ok w => rw [hc] at hnone; simp [Except.toOption] at hnone
        | error e2 => exact ⟨e2, rfl⟩
      exact ⟨e, by rw [convertAll, he]⟩
    · cases hc : conv t with
      | ok w =>
        obtain ⟨e, he⟩ := ih ⟨u, hu2, hnone⟩
        exact ⟨e, by rw [convertAll, hc, he]⟩
      | error e2 => exact ⟨e2, by rw [convertAll, hc]⟩


/-! ## Claim theorems -/

/-- Claim C1, amended: for a non-empty separator all of whose characters are
single-byte, tokenization under the `SequenceTrim` / `TrimStart` / `TrimEnd`
variants splits at every non-overlapping literal occurrence of `seq` scanned
left to right (the behaviour of `str::split`), trimming each closed segment
per the variant and appending the trailing remainder the same way.  (The
scan advances by `seq`'s byte length counted in characters, which equals the
matched separator only for single-byte characters; see the counterexample
for a multi-byte separator.) -/
theorem sequenceTrim_single_byte_separator_split (seq s : List Char)
    (hne : seq ≠ []) (hb : ∀ c ∈ seq, c.utf8Size = 1) :
    tokenize (.sequenceTrim seq) s = dropLastEmpty ((splitSeq seq s).map trim)
    ∧ tokenize (.sequenceTrimStart seq) s
        = dropLastEmpty ((splitSeq seq s).map trimStart)
    ∧ tokenize (.sequenceTrimEnd seq) s
        = dropLastEmpty ((splitSeq seq s).map trimEnd) := by
  have key : ∀ trimF : List Char → List Char,
      seqScan trimF seq s = (splitSeq seq s).map trimF := by
    intro trimF
    have h := scanGo_eq_splitGo trimF seq s hne hb s.length 0 0 [] (le_refl 0)
    simpa [seqScan, splitSeq] using h
  refine ⟨?_, ?_, ?_⟩ <;> simp only [tokenize, rawTokens, key]

/-- Claim C1 witness: the single-byte case at `SequenceTrim(",")` on
`"a, b ,c"`. -/
theorem sequenceTrim_single_byte_separator_split_witness :
    tokenize (.sequenceTrim ",".data) "a, b ,c".data
        = dropLastEmpty ((splitSeq ",".data "a, b ,c".data).map trim)
    ∧ tokenize (.sequenceTrimStart ",".data) "a, b ,c".data
        = dropLastEmpty ((splitSeq ",".data "a, b ,c".data).map trimStart)
    ∧ tokenize (.sequenceTrimEnd ",".data) "a, b ,c".data
        = dropLastEmpty ((splitSeq ",".data "a, b ,c".data).map trimEnd) :=
  sequenceTrim_single_byte_separator_split ",".data "a, b ,c".data
    (by decide) (by decide)

/-- Claim C1 counterexample: with the multi-byte separator `"é"` the scan
misses the second of two adjacent separator occurrences in `"aéébé"`, so the
result differs from splitting at every non-overlapping occurrence followed
by per-segment trimming. -/
theorem sequenceTrim_multibyte_separator_cex :
    tokenize (.sequenceTrim "é".data) "aéébé".data = ["a".data, "éb".data]
    ∧ dropLastEmpty ((splitSeq "é".data "aéébé".data).map trim)
        = ["a".data, [], "b".data]
    ∧ tokenize (.sequenceTrim "é".data) "aéébé".data
        ≠ dropLastEmpty ((splitSeq "é".data "aéébé".data).map trim) :=
  ⟨by decide, by decide, by decide⟩

/-- Claim C2: with QuoteMode on, the acquired line is rewritten with every
whitespace character inside an open quote region (odd number of preceding
`"` characters, an unterminated quote staying open) replaced by the
sentinel, every `"` removed, and the result trimmed; after tokenization the
sentinel is restored to a single space in each token.  The two concrete
examples from the spec follow. -/
theorem quote_mode_rewrite :
    (∀ line : List Char, quoteScan line false = specQuoteRewrite line 0)
    ∧ processLine true .whitespace ("a \"b c d\" e f".data)
        = ["a".data, "b c d".data, "e".data, "f".data]
    ∧ processLine false .whitespace ("a \"b c d\" e f".data)
        = ["a".data, "\"b".data, "c".data, "d\"".data, "e".data, "f".data] := by
  refine ⟨fun line => ?_, by decide, by decide⟩
  have h := quoteScan_eq_spec line 0
  simpa using h

/-- Claim C3: `ask_many_until` discards a line wholly when any of its tokens
fails to convert and succeeds exactly with the converted values of the first
line all of whose tokens convert; every earlier acquired line failed as a
whole, so no values from different lines are mixed. -/
theorem ask_many_until_retry {α : Type}
    (conv : List Char → Except ParseError α) (qm : Bool) (sep : Separator) :
    (∀ line rest,
      (∃ t ∈ processLine qm sep line, (conv t).toOption = none) →
      ask_many_until conv qm sep (line :: rest)
        = ask_many_until conv qm sep rest)
    ∧ (∀ (lines : List (List Char)) (v : List α),
      ask_many_until conv qm sep lines = some v →
      ∃ i, ∃ hi : i < lines.length,
        (∀ j, ∀ hj : j < i, ∃ e,
          convertAll conv (processLine qm sep (lines.get ⟨j, by omega⟩))
            = Except.error e)
        ∧ convertAll conv (processLine qm sep (lines.get ⟨i, hi⟩))
            = Except.ok v) := by
  constructor
  · intro line rest hex
    obtain ⟨e, he⟩ := convertAll_error_of_mem conv _ hex
    rw [ask_many_until, he]
  · intro lines
    induction lines with
    | nil => intro v h; simp [ask_many_until] at h
    | cons line rest ih =>
      intro v h
      rw [ask_many_until] at h
      cases hc : convertAll conv (processLine qm sep line) with
      | ok w =>
        rw [hc] at h
        simp only [Option.some.injEq] at h
        subst h
        exact ⟨0, by simp, fun j hj => absurd hj (Nat.not_lt_zero j),
          by simpa using hc⟩
      | error e =>
        rw [hc] at h
        obtain ⟨i, hi, hfail, hok⟩ := ih v h
        refine ⟨i + 1, by simpa using Nat.succ_lt_succ hi, ?_, by simpa using hok⟩
        intro j hj
        cases j with
        | zero => exact ⟨e, by simpa using hc⟩
        | succ k =>
          obtain ⟨e2, he2⟩ := hfail k (by omega)
          exact ⟨e2, by simpa using he2⟩

/-- Claim C3 witness: a line with a failing token is discarded whole and the
loop continues with the next acquired line. -/
theorem ask_many_until_retry_witness :
    ask_many_until boolConvert false Separator.whitespace
        ("maybe x".data :: ["y n".data])
      = ask_many_until boolConvert false Separator.whitespace ["y n".data] :=
  (ask_many_until_retry boolConvert false Separator.whitespace).1
    "maybe x".data ["y n".data] (by decide)

/-- Claim C4: `ask_many` acquires one line; if every token converts it
returns the converted values in token order, and if any token fails it
fails with the error of the leftmost failing token. -/
theorem ask_many_strict_conversion {α : Type}
    (conv : List Char → Except ParseError α) (qm : Bool) (sep : Separator)
    (line : List Char) :
    (∀ vs : List α,
      (processLine qm sep line).map (fun t => (conv t).toOption) = vs.map some →
      ask_many conv qm sep line = .ok vs)
    ∧ (∀ (ts1 : List (List Char)) (t : List Char) (ts2 : List (List Char))
        (e : ParseError),
      processLine qm sep line = ts1 ++ t :: ts2 →
      (∀ u ∈ ts1, (conv u).toOption ≠ none) → conv t = .error e →
      ask_many conv qm sep line = .error e) := by
  constructor
  · intro vs h
    exact convertAll_ok_of_map conv _ vs h
  · intro ts1 t ts2 e hsplit hall ht
    show convertAll conv (processLine qm sep line) = .error e
    rw [hsplit]
    exact convertAll_error_of_split conv e ts1 t ts2 hall ht

/-- Claim C4 witness: the first failing token's error surfaces. -/
theorem ask_many_strict_conversion_witness :
    ask_many boolConvert false Separator.whitespace "y maybe".data
      = Except.error ⟨"maybe".data, "bool".data⟩ :=
  (ask_many_strict_conversion boolConvert false Separator.whitespace
      "y maybe".data).2
    ["y".data] "maybe".data [] ⟨"maybe".data, "bool".data⟩
    (by decide) (by decide) (by rfl)

/-- Claim C5: for every separator variant, a final empty token is dropped
and this is the only change (interior tokens, empty ones included, are kept
by `dropLast`); `SequenceTrim(",")` on `"a,b,"` yields `["a", "b"]` while
the interior empty in `"a,,b"` is preserved. -/
theorem trailing_empty_token_dropped :
    (∀ (sep : Separator) (s : List Char),
      ((rawTokens sep s).getLast? = some [] →
        tokenize sep s = (rawTokens sep s).dropLast)
      ∧ ((rawTokens sep s).getLast? ≠ some [] →
        tokenize sep s = rawTokens sep s))
    ∧ tokenize (.sequenceTrim ",".data) "a,b,".data = ["a".data, "b".data]
    ∧ tokenize (.sequenceTrim ",".data) "a,,b".data
        = ["a".data, [], "b".data] := by
  refine ⟨fun sep s => ⟨fun h => ?_, fun h => ?_⟩, by decide, by decide⟩
  · show dropLastEmpty (rawTokens sep s) = (rawTokens sep s).dropLast
    rw [dropLastEmpty, if_pos h]
  · show dropLastEmpty (rawTokens sep s) = rawTokens sep s
    rw [dropLastEmpty, if_neg h]

/-- Claim C5 witness: a trailing separator's empty token is popped. -/
theorem trailing_empty_token_dropped_witness :
    tokenize (.sequenceTrim ",".data) "ab,".data
      = (rawTokens (.sequenceTrim ",".data) "ab,".data).dropLast :=
  (trailing_empty_token_dropped.1 (.sequenceTrim ",".data) "ab,".data).1
    (by decide)


/-- Claim C6, amended: for a trimmed, non-empty input in which the chosen
separator does not occur, tokenization under any variant returns the
one-element sequence holding the input itself (which equals its own trim);
the empty input instead tokenizes to zero tokens, and the `Sequence` variant
does not trim, so untrimmed input is returned untrimmed. -/
theorem no_separator_single_token (sep : Separator) (s : List Char)
    (h1 : trimStart s = s) (h2 : trimEnd s = s) (h3 : s ≠ [])
    (h4 : sepOccurs sep s = false) :
    tokenize sep s = [s] := by
  have hie : s.isEmpty = false := by
    cases s with
    | nil => exact absurd rfl h3
    | cons a l => rfl
  cases sep with
  | whitespace =>
    have hno : ∀ c ∈ s, isWS c = false := by
      intro c hc
      have := List.any_eq_false.mp h4 c hc
      simpa only [Bool.not_eq_true] using this
    have hraw : rawTokens .whitespace s = [s] := by
      show splitWhitespace s = [s]
      rw [splitWhitespace, swAux_no_ws s hno []]
      simp [hie]
    show dropLastEmpty (rawTokens .whitespace s) = [s]
    rw [hraw]
    exact dropLastEmpty_singleton s h3
  | sequence seq =>
    have hpre := occursIn_false seq s h4
    have hraw : rawTokens (.sequence seq) s = [s] := by
      show splitSeq seq s = [s]
      rw [splitSeq, splitGo_no_match seq s hpre s.length []]
      rw [List.nil_append]
    show dropLastEmpty (rawTokens (.sequence seq) s) = [s]
    rw [hraw]
    exact dropLastEmpty_singleton s h3
  | sequenceTrim seq =>
    have hpre := occursIn_false seq s h4
    have htr : trim s = s := by rw [trim, h1, h2]
    have hraw : rawTokens (.sequenceTrim seq) s = [s] := by
      show seqScan trim seq s = [s]
      rw [seqScan, scanGo_no_match trim seq s hpre s.length 0 0 []]
      simp [htr]
    show dropLastEmpty (rawTokens (.sequenceTrim seq) s) = [s]
    rw [hraw]
    exact dropLastEmpty_singleton s h3
  | sequenceTrimStart seq =>
    have hpre := occursIn_false seq s h4
    have hraw : rawTokens (.sequenceTrimStart seq) s = [s] := by
      show seqScan trimStart seq s = [s]
      rw [seqScan, scanGo_no_match trimStart seq s hpre s.length 0 0 []]
      simp [h1]
    show dropLastEmpty (rawTokens (.sequenceTrimStart seq) s) = [s]
    rw [hraw]
    exact dropLastEmpty_singleton s h3
  | sequenceTrimEnd seq =>
    have hpre := occursIn_false seq s h4
    have hraw : rawTokens (.sequenceTrimEnd seq) s = [s] := by
      show seqScan trimEnd seq s = [s]
      rw [seqScan, scanGo_no_match trimEnd seq s hpre s.length 0 0 []]
      simp [h2]
    show dropLastEmpty (rawTokens (.sequenceTrimEnd seq) s) = [s]
    rw [hraw]
    exact dropLastEmpty_singleton s h3

/-- Claim C6 witness: a separator-free trimmed non-empty input under
`Sequence(",")`. -/
theorem no_separator_single_token_witness :
    tokenize (Separator.sequence ",".data) "ab".data = ["ab".data] :=
  no_separator_single_token (Separator.sequence ",".data) "ab".data
    (by decide) (by decide) (by decide) (by decide)

/-- Claim C6 counterexample: the empty input contains no `","` yet
tokenizes to zero tokens rather than to the one-element sequence of its
trim, and the untrimmed `" a "` under `Sequence(",")` is returned untrimmed,
not equal to the one-element sequence of its trim. -/
theorem no_separator_cex :
    sepOccurs (Separator.sequence ",".data) [] = false
    ∧ tokenize (Separator.sequence ",".data) [] = []
    ∧ ([] : List (List Char)) ≠ [trim []]
    ∧ sepOccurs (Separator.sequence ",".data) " a ".data = false
    ∧ tokenize (Separator.sequence ",".data) " a ".data = [" a ".data]
    ∧ [" a ".data] ≠ [trim " a ".data] :=
  ⟨by decide, by decide, by decide, by decide, by decide, by decide⟩

/-- Claim C7: boolean conversion lowercases and trims the input, maps the
truthy set to `true` and the falsy set to `false`, and fails on anything
else with a `ParseError` carrying the original text and target `bool`;
concrete instances from the spec follow. -/
theorem bool_conversion :
    (∀ s : List Char,
      (trim (s.map Char.toLower) = "y".data ∨
          trim (s.map Char.toLower) = "yes".data ∨
          trim (s.map Char.toLower) = "t".data ∨
          trim (s.map Char.toLower) = "true".data ∨
          trim (s.map Char.toLower) = "1".data →
        boolConvert s = .ok true)
      ∧ (trim (s.map Char.toLower) = "n".data ∨
          trim (s.map Char.toLower) = "no".data ∨
          trim (s.map Char.toLower) = "f".data ∨
          trim (s.map Char.toLower) = "false".data ∨
          trim (s.map Char.toLower) = "0".data →
        boolConvert s = .ok false)
      ∧ (¬(trim (s.map Char.toLower) = "y".data ∨
          trim (s.map Char.toLower) = "yes".data ∨
          trim (s.map Char.toLower) = "t".data ∨
          trim (s.map Char.toLower) = "true".data ∨
          trim (s.map Char.toLower) = "1".data) →
        ¬(trim (s.map Char.toLower) = "n".data ∨
          trim (s.map Char.toLower) = "no".data ∨
          trim (s.map Char.toLower) = "f".data ∨
          trim (s.map Char.toLower) = "false".data ∨
          trim (s.map Char.toLower) = "0".data) →
        boolConvert s = .error ⟨s, "bool".data⟩))
    ∧ boolConvert "Y".data = .ok true
    ∧ boolConvert "true".data = .ok true
    ∧ boolConvert "1".data = .ok true
    ∧ boolConvert "no".data = .ok false
    ∧ boolConvert "0".data = .ok false
    ∧ boolConvert "maybe".data = .error ⟨"maybe".data, "bool".data⟩ := by
  refine ⟨fun s => ⟨fun hm => ?_, fun hm => ?_, fun hm1 hm2 => ?_⟩,
    by rfl, by rfl, by rfl, by rfl, by rfl, by rfl⟩
  · simp only [boolConvert]
    rw [if_pos hm]
  · have hno : ¬(trim (s.map Char.toLower) = "y".data ∨
        trim (s.map Char.toLower) = "yes".data ∨
        trim (s.map Char.toLower) = "t".data ∨
        trim (s.map Char.toLower) = "true".data ∨
        trim (s.map Char.toLower) = "1".data) := by
      rintro (h | h | h | h | h) <;>
        rcases hm with h2 | h2 | h2 | h2 | h2 <;>
        rw [h] at h2 <;>
        exact absurd h2 (by decide)
    simp only [boolConvert]
    rw [if_neg hno, if_pos hm]
  · simp only [boolConvert]
    rw [if_neg hm1, if_neg hm2]

/-- Claim C7 witness: case-insensitive trimmed matching on `" TRUE "`. -/
theorem bool_conversion_witness :
    boolConvert " TRUE ".data = .ok true :=
  (bool_conversion.1 " TRUE ".data).1 (by decide)

/-- Claim C8: `Whitespace` tokenization never produces an empty token and
the number of tokens equals the number of maximal whitespace-delimited
runs of the line. -/
theorem whitespace_token_runs (s : List Char) :
    (∀ t ∈ tokenize .whitespace s, t ≠ [])
    ∧ (tokenize .whitespace s).length = specMaximalRunCount s := by
  have hne : ∀ t ∈ splitWhitespace s, t ≠ [] :=
    fun t ht => swAux_ne_nil s [] t ht
  have heq : tokenize .whitespace s = splitWhitespace s := by
    show dropLastEmpty (splitWhitespace s) = splitWhitespace s
    exact dropLastEmpty_of_no_empty _ hne
  refine ⟨by rw [heq]; exact hne, ?_⟩
  rw [heq]
  have hl := swAux_length s []
  simpa [splitWhitespace, specMaximalRunCount] using hl

/-- Claim C8 witness: evaluated on `"a  b"`, whose tokens are the two
non-empty runs. -/
theorem whitespace_token_runs_witness :
    "a".data ≠ ([] : List Char)
    ∧ (tokenize .whitespace "a  b".data).length
        = specMaximalRunCount "a  b".data :=
  ⟨(whitespace_token_runs "a  b".data).1 "a".data (by decide),
   (whitespace_token_runs "a  b".data).2⟩

/-- Claim C9: the sentinel-to-space restoration is applied to every token
of every multi-value acquisition even with QuoteMode off: the processed
tokens are exactly the tokenized line mapped through
`replace(WHITESPACE_REPR, " ")`, and a literal sentinel occurrence in the
input becomes a space. -/
theorem sentinel_restoration_unconditional :
    (∀ (sep : Separator) (line : List Char),
      processLine false sep line
        = (tokenize sep line).map (replaceList WHITESPACE_REPR [' ']))
    ∧ processLine false .whitespace "xTHIS___IS__A_REPRy".data
        = ["x y".data] :=
  ⟨fun sep line => rfl, by decide⟩

/-- Claim C10: a line with zero tokens makes `ask_many` succeed with the
empty vector, makes `ask_many_until` return the empty vector at once
(whatever lines would follow), and makes `ask_many_opt` report the
absent-value outcome. -/
theorem zero_token_policies {α : Type}
    (conv : List Char → Except ParseError α) (qm : Bool) (sep : Separator)
    (line : List Char) (rest : List (List Char))
    (h : processLine qm sep line = []) :
    ask_many conv qm sep line = .ok []
    ∧ ask_many_until conv qm sep (line :: rest) = some []
    ∧ ask_many_opt conv qm sep (line :: rest) = some none := by
  refine ⟨?_, ?_, ?_⟩
  · show convertAll conv (processLine qm sep line) = .ok []
    rw [h]
    rfl
  · rw [ask_many_until, h]
    rfl
  · rw [ask_many_opt, h]
    rfl

/-- Claim C10 witness: the empty line under `SequenceTrim(",")`. -/
theorem zero_token_policies_witness :
    ask_many boolConvert false (.sequenceTrim ",".data) [] = .ok []
    ∧ ask_many_until boolConvert false (.sequenceTrim ",".data) ([] :: [])
        = some []
    ∧ ask_many_opt boolConvert false (.sequenceTrim ",".data) ([] :: [])
        = some none :=
  zero_token_policies boolConvert false (.sequenceTrim ",".data) [] []
    (by decide)

end Interviewer
